import Mathlib

/-!
Verification of the statistics-aggregation core (`src/history.rs`) of the
ebur128 crate: the dual Histogram/Queue loudness-energy accumulator that
derives integrated (gated) loudness, the relative gating threshold, and
loudness range (EBU R128 / EBU Tech 3342).

Machine `f64` values are embedded as elements of an arbitrary linear ordered
field `α` (instantiable at `ℚ` for concrete evaluation and at `ℝ` as the
idealisation of `f64`).  The f64 value negative infinity, the "silence"
result, is embedded as `none : Option α`.

The two process-wide lookup tables (`HISTOGRAM_ENERGY_BOUNDARIES`,
`HISTOGRAM_ENERGIES`, initialised once in `init_histogram` from the formulas
`boundaries[i] = 10^((i/10 - 70 + 0.691)/10)` and
`energies[i] = 10^((i/10 - 69.95 + 0.691)/10)`) are embedded as a `Tables`
structure: the two index-to-value maps together with the order facts that the
initialisation formulas guarantee (the boundaries are strictly increasing on
`[0, 1000]`, and each representative bucket energy lies strictly inside its
bucket).  `realTables` below instantiates the structure with the exact real
powers from the source and discharges those facts.
-/

namespace Ebur128

/-- The shared lookup tables of `init_histogram`, together with the order
facts guaranteed by their defining formulas.  `boundaries` models
`HISTOGRAM_ENERGY_BOUNDARIES` (indices `0..=1000`), `energies` models
`HISTOGRAM_ENERGIES` (indices `0..=999`). -/
structure Tables (α : Type*) [LinearOrderedField α] where
  boundaries : ℕ → α
  energies : ℕ → α
  bd_mono : ∀ i j : ℕ, i < j → j ≤ 1000 → boundaries i < boundaries j
  en_lower : ∀ i : ℕ, i < 1000 → boundaries i < energies i
  en_upper : ∀ i : ℕ, i < 1000 → energies i < boundaries (i + 1)

variable {α : Type*} [LinearOrderedField α]

theorem Tables.bd_mono_le (T : Tables α) {i j : ℕ} (hij : i ≤ j) (hj : j ≤ 1000) :
    T.boundaries i ≤ T.boundaries j := by
  rcases Nat.lt_or_ge i j with h | h
  · exact le_of_lt (T.bd_mono i j h hj)
  · have : i = j := le_antisymm hij h
    simp [this]

theorem Tables.en_mono_le (T : Tables α) {i j : ℕ} (hij : i ≤ j) (hj : j ≤ 999) :
    T.energies i ≤ T.energies j := by
  rcases Nat.lt_or_ge i j with h | h
  · have h1 : T.energies i < T.boundaries (i + 1) := T.en_upper i (by omega)
    have h2 : T.boundaries (i + 1) ≤ T.boundaries j := T.bd_mono_le (by omega) (by omega)
    have h3 : T.boundaries j < T.energies j := T.en_lower j (by omega)
    linarith
  · have : i = j := le_antisymm hij h
    simp [this]

/-- The binary-search loop of `find_histogram_index`, with an explicit fuel
parameter bounding the number of iterations (the source loop runs at most
ten iterations from the initial interval `[0, 1000)`; fuel `1000` is ample).
Each iteration computes `mid = (min + max) / 2`, moves `min` up to `mid`
when `energy >= boundaries[mid]` and otherwise moves `max` down to `mid`,
and exits returning `min` once `max - min == 1`. -/
def fhiAux (T : Tables α) (energy : α) : ℕ → ℕ → ℕ → ℕ
  | 0, mn, _ => mn
  | fuel + 1, mn, mx =>
    if T.boundaries ((mn + mx) / 2) ≤ energy then
      if mx - (mn + mx) / 2 = 1 then (mn + mx) / 2
      else fhiAux T energy fuel ((mn + mx) / 2) mx
    else
      if (mn + mx) / 2 - mn = 1 then mn
      else fhiAux T energy fuel mn ((mn + mx) / 2)

/-- `find_histogram_index`: binary search for the bucket of `energy` over the
1001-entry boundary table, starting from the interval `[0, 1000)`. -/
def find_histogram_index (T : Tables α) (energy : α) : ℕ :=
  fhiAux T energy 1000 0 1000

theorem fhiAux_spec (T : Tables α) (e : α) :
    ∀ fuel mn mx : ℕ, mn < mx → mx ≤ 1000 → mx - mn ≤ fuel + 1 →
      T.boundaries mn ≤ e → (e < T.boundaries mx ∨ mx = 1000) →
      fhiAux T e fuel mn mx < 1000 ∧ mn ≤ fhiAux T e fuel mn mx ∧
        T.boundaries (fhiAux T e fuel mn mx) ≤ e ∧
        (e < T.boundaries (fhiAux T e fuel mn mx + 1) ∨
          fhiAux T e fuel mn mx + 1 = 1000) := by
  intro fuel
  induction fuel with
  | zero =>
    intro mn mx h1 h2 h3 h4 h5
    have hmx : mx = mn + 1 := by omega
    subst hmx
    simp only [fhiAux]
    refine ⟨by omega, le_rfl, h4, ?_⟩
    simpa using h5
  | succ f ih =>
    intro mn mx h1 h2 h3 h4 h5
    by_cases hb : T.boundaries ((mn + mx) / 2) ≤ e
    · by_cases hw : mx - (mn + mx) / 2 = 1
      · have hfx : fhiAux T e (f + 1) mn mx = (mn + mx) / 2 := by
          simp [fhiAux, hb, hw]
        rw [hfx]
        have hmid : (mn + mx) / 2 + 1 = mx := by omega
        refine ⟨by omega, by omega, hb, ?_⟩
        rw [hmid]
        exact h5
      · have hfx : fhiAux T e (f + 1) mn mx = fhiAux T e f ((mn + mx) / 2) mx := by
          simp [fhiAux, hb, hw]
        rw [hfx]
        have hlt : (mn + mx) / 2 < mx := by omega
        have hgt : mn < (mn + mx) / 2 := by
          rcases Nat.lt_or_ge mn ((mn + mx) / 2) with h | h
          · exact h
          · exfalso
            have : (mn + mx) / 2 = mn := by omega
            omega
        obtain ⟨c1, c2, c3, c4⟩ := ih ((mn + mx) / 2) mx hlt h2 (by omega) hb h5
        exact ⟨c1, by omega, c3, c4⟩
    · have hgt : mn < (mn + mx) / 2 := by
        rcases Nat.lt_or_ge mn ((mn + mx) / 2) with h | h
        · exact h
        · exfalso
          have hmid : (mn + mx) / 2 = mn := by omega
          rw [hmid] at hb
          exact hb h4
      by_cases hw : (mn + mx) / 2 - mn = 1
      · have hfx : fhiAux T e (f + 1) mn mx = mn := by
          simp [fhiAux, hb, hw]
        rw [hfx]
        have hmid : mn + 1 = (mn + mx) / 2 := by omega
        refine ⟨by omega, le_rfl, h4, Or.inl ?_⟩
        rw [hmid]
        exact lt_of_not_le hb
      · have hfx : fhiAux T e (f + 1) mn mx = fhiAux T e f mn ((mn + mx) / 2) := by
          simp [fhiAux, hb, hw]
        rw [hfx]
        obtain ⟨c1, c2, c3, c4⟩ :=
          ih mn ((mn + mx) / 2) hgt (by omega) (by omega) h4 (Or.inl (lt_of_not_le hb))
        exact ⟨c1, c2, c3, c4⟩

theorem find_histogram_index_lt (T : Tables α) (e : α) (he : T.boundaries 0 ≤ e) :
    find_histogram_index T e < 1000 :=
  (fhiAux_spec T e 1000 0 1000 (by omega) (by omega) (by omega) he (Or.inr rfl)).1

theorem find_histogram_index_le (T : Tables α) (e : α) (he : T.boundaries 0 ≤ e) :
    T.boundaries (find_histogram_index T e) ≤ e :=
  (fhiAux_spec T e 1000 0 1000 (by omega) (by omega) (by omega) he (Or.inr rfl)).2.2.1

theorem find_histogram_index_upper (T : Tables α) (e : α) (he : T.boundaries 0 ≤ e) :
    e < T.boundaries (find_histogram_index T e + 1) ∨ find_histogram_index T e + 1 = 1000 :=
  (fhiAux_spec T e 1000 0 1000 (by omega) (by omega) (by omega) he (Or.inr rfl)).2.2.2

/-- The shared "round up to the first qualifying bucket" computation of the
source (`History::gated_loudness_multiple` lines 297-306 and
`Histogram::loudness_range` lines 121-130): the scan start index for a
threshold energy `thr` is `0` when `thr < boundaries[0]`, and otherwise
`find_histogram_index thr`, bumped by one when the located bucket's
representative energy is still below `thr`. -/
def gateStartIndex (T : Tables α) (thr : α) : ℕ :=
  if thr < T.boundaries 0 then 0
  else if T.energies (find_histogram_index T thr) < thr then find_histogram_index T thr + 1
  else find_histogram_index T thr

theorem gateStartIndex_le (T : Tables α) (thr : α) : gateStartIndex T thr ≤ 1000 := by
  unfold gateStartIndex
  by_cases h0 : thr < T.boundaries 0
  · simp [h0]
  · have := find_histogram_index_lt T thr (le_of_not_lt h0)
    by_cases h1 : T.energies (find_histogram_index T thr) < thr <;> simp [h0, h1] <;> omega

/-- The start index computed by `gateStartIndex` marks exactly the buckets
whose representative energy is at or above the threshold. -/
theorem gateStartIndex_spec (T : Tables α) (thr : α) :
    ∀ i : ℕ, i < 1000 → (gateStartIndex T thr ≤ i ↔ thr ≤ T.energies i) := by
  intro i hi
  unfold gateStartIndex
  by_cases h0 : thr < T.boundaries 0
  · simp only [h0, if_true]
    have h1 : T.boundaries 0 ≤ T.boundaries i := T.bd_mono_le (by omega) (by omega)
    have h2 : T.boundaries i < T.energies i := T.en_lower i hi
    constructor
    · intro _
      linarith
    · intro _
      omega
  · have hb0 : T.boundaries 0 ≤ thr := le_of_not_lt h0
    have hsi_lt : find_histogram_index T thr < 1000 := find_histogram_index_lt T thr hb0
    have hsi_le : T.boundaries (find_histogram_index T thr) ≤ thr :=
      find_histogram_index_le T thr hb0
    have hsi_up := find_histogram_index_upper T thr hb0
    by_cases h1 : T.energies (find_histogram_index T thr) < thr
    · simp only [h0, h1, if_true, if_false]
      constructor
      · intro hle
        rcases hsi_up with hup | htop
        · have h2 : T.boundaries (find_histogram_index T thr + 1) ≤ T.boundaries i :=
            T.bd_mono_le hle (by omega)
          have h3 : T.boundaries i < T.energies i := T.en_lower i hi
          linarith
        · omega
      · intro hge
        rcases Nat.lt_or_ge i (find_histogram_index T thr + 1) with hlt | h
        · have h2 : T.energies i ≤ T.energies (find_histogram_index T thr) :=
            T.en_mono_le (by omega) (by omega)
          linarith
        · exact h
    · simp only [h0, h1, if_false]
      have h1' : thr ≤ T.energies (find_histogram_index T thr) := le_of_not_lt h1
      constructor
      · intro hle
        have h2 : T.energies (find_histogram_index T thr) ≤ T.energies i :=
          T.en_mono_le hle (by omega)
        linarith
      · intro hge
        rcases Nat.lt_or_ge i (find_histogram_index T thr) with hlt | h
        · have h2 : T.energies i < T.boundaries (i + 1) := T.en_upper i hi
          have h3 : T.boundaries (i + 1) ≤ T.boundaries (find_histogram_index T thr) :=
            T.bd_mono_le (by omega) (by omega)
          linarith
        · exact h

/-- The index range `[gateStartIndex thr, 1000)` scanned by the source equals
the set of buckets below 1000 whose representative energy is `>= thr`. -/
theorem gateStartIndex_Ico_eq (T : Tables α) (thr : α) :
    Finset.Ico (gateStartIndex T thr) 1000 =
      (Finset.range 1000).filter (fun i => thr ≤ T.energies i) := by
  ext i
  simp only [Finset.mem_Ico, Finset.mem_filter, Finset.mem_range]
  constructor
  · intro ⟨h1, h2⟩
    exact ⟨h2, (gateStartIndex_spec T thr i h2).mp h1⟩
  · intro ⟨h1, h2⟩
    exact ⟨(gateStartIndex_spec T thr i h1).mpr h2, h1⟩

/-! ### Histogram storage strategy

A histogram is the map from bucket index to counter value; the source's
`Box<[u64; 1000]>` only has entries at indices `0..1000`, and every
operation below reads indices `< 1000` only. -/

/-- `Histogram::add`: locate the bucket of `energy` and increment it. -/
def Histogram.add (T : Tables α) (h : ℕ → ℕ) (energy : α) : ℕ → ℕ :=
  Function.update h (find_histogram_index T energy)
    (h (find_histogram_index T energy) + 1)

/-- `Histogram::calc_relative_threshold`: total count and count-weighted sum
of representative bucket energies. -/
def Histogram.calc_relative_threshold (T : Tables α) (h : ℕ → ℕ) : ℕ × α :=
  (∑ i ∈ Finset.range 1000, h i, ∑ i ∈ Finset.range 1000, (h i : α) * T.energies i)

/-- The percentile bucket walk of `Histogram::loudness_range` (lines
140-152): starting at bucket `j` with running count `size`, accumulate
bucket counts while `size <= p`, stepping `j` upward.  A read of `h[j]` with
`j >= 1000` would be an out-of-bounds panic in the source; it is modelled
as `none`.  The fuel bounds the iteration count; `1001` is ample since `j`
increases every iteration and the walk aborts at `j = 1000`. -/
def percentileWalk (h : ℕ → ℕ) (p : ℕ) : ℕ → ℕ → ℕ → Option (ℕ × ℕ)
  | 0, size, j => if p < size then some (size, j) else none
  | fuel + 1, size, j =>
    if p < size then some (size, j)
    else if j < 1000 then percentileWalk h p fuel (size + h j) (j + 1)
    else none

/-- The percentile-extraction tail of `Histogram::loudness_range` (lines
136-154): with `n` the post-gate count, compute the nearest-rank thresholds
`low = floor((n-1)*0.1 + 0.5)` and `high = floor((n-1)*0.95 + 0.5)`, walk
buckets upward from the gate `index` past each threshold, and convert the
two representative energies found to loudness. -/
def histPercentiles [FloorRing α] (T : Tables α) (L : α → α) (h : ℕ → ℕ)
    (index n : ℕ) : Option α :=
  match percentileWalk h (Nat.floor (((n - 1 : ℕ) : α) * (1 / 10) + 1 / 2)) 1001 0 index with
  | none => none
  | some (size3, j1) =>
    match percentileWalk h (Nat.floor (((n - 1 : ℕ) : α) * (95 / 100) + 1 / 2))
        1001 size3 j1 with
    | none => none
    | some (_, j2) => some (L (T.energies (j2 - 1)) - L (T.energies (j1 - 1)))

/-- The post-gate part of `Histogram::loudness_range` (lines 131-154): sum
the counts from the gate index on; `0.0` when that sum is zero, otherwise
the percentile extraction. -/
def histGated [FloorRing α] (T : Tables α) (L : α → α) (h : ℕ → ℕ) (index : ℕ) :
    Option α :=
  if (∑ i ∈ Finset.Ico index 1000, h i) = 0 then some 0
  else histPercentiles T L h index (∑ i ∈ Finset.Ico index 1000, h i)

/-- `Histogram::loudness_range` (a free function over a counts array): mean
energy, -20 dB absolute gate (`integrated = 10^(-20/10) * mean`, located via
the shared `gateStartIndex` round-up), nearest-rank 10th/95th percentile
extraction by walking buckets upward from the gate index.  `none` models the
out-of-bounds panic of the bucket walk; `L` is the external
`energy_to_loudness` conversion. -/
def Histogram.loudness_range [FloorRing α] (T : Tables α) (L : α → α) (h : ℕ → ℕ) :
    Option α :=
  if (∑ i ∈ Finset.range 1000, h i) = 0 then some 0
  else
    histGated T L h (gateStartIndex T ((10 : α) ^ ((-20 : ℤ) / 10) *
      ((∑ i ∈ Finset.range 1000, (h i : α) * T.energies i) /
        ((∑ i ∈ Finset.range 1000, h i : ℕ) : α))))

/-! ### Queue storage strategy -/

/-- The `Queue` struct: a FIFO of raw energy values (front = oldest) plus the
configured maximum length. -/
structure Queue (α : Type*) where
  queue : List α
  max : ℕ

/-- `Queue::add`: when the stored length equals `max`, pop the oldest element
from the front; then push the new energy at the back. -/
def Queue.add (q : Queue α) (energy : α) : Queue α :=
  if q.max = q.queue.length then { queue := q.queue.tail ++ [energy], max := q.max }
  else { queue := q.queue ++ [energy], max := q.max }

/-- `Queue::set_max_size`: when the stored length is below the new maximum,
resize the queue up to that length padding with `0.0`; in every case record
the new maximum. -/
def Queue.set_max_size (q : Queue α) (max : ℕ) : Queue α :=
  if q.queue.length < max then
    { queue := q.queue ++ List.replicate (max - q.queue.length) 0, max := max }
  else { queue := q.queue, max := max }

/-- `Queue::calc_relative_threshold`: element count and plain sum. -/
def Queue.calc_relative_threshold (q : Queue α) : ℕ × α :=
  (q.queue.length, q.queue.sum)

/-- The linear scan of `Queue::loudness_range` (lines 204-209): length of the
longest prefix of elements strictly below `integrated`. -/
def countBelow (integrated : α) : List α → ℕ
  | [] => 0
  | x :: xs => if x < integrated then countBelow integrated xs + 1 else 0

/-- `Queue::loudness_range` (a free function over a sorted slice): mean
energy, -20 dB absolute gate applied by a linear prefix scan, nearest-rank
10th/95th percentile extraction by direct indexing into the slice. -/
def Queue.loudness_range [FloorRing α] (L : α → α) (q : List α) : α :=
  if q.length = 0 then 0
  else
    let power := q.sum / (q.length : α)
    let integrated := (10 : α) ^ ((-20 : ℤ) / 10) * power
    let relgated := countBelow integrated q
    let relgated_size := q.length - relgated
    if 0 < relgated_size then
      L (q.getD (relgated + Nat.floor (((relgated_size - 1 : ℕ) : α) * (95 / 100) + 1 / 2)) 0)
        - L (q.getD (relgated + Nat.floor (((relgated_size - 1 : ℕ) : α) * (1 / 10) + 1 / 2)) 0)
    else 0

/-! ### History: the variant dispatcher -/

/-- `History`: a tagged union owning exactly one of the two storage
strategies. -/
inductive History (α : Type*) where
  | queue : Queue α → History α
  | histogram : (ℕ → ℕ) → History α

/-- `History::new`: select and construct the variant (the lookup-table
initialisation of the source is embedded by the `Tables` argument every
operation receives). -/
def History.new (use_histogram : Bool) (max : ℕ) : History α :=
  if use_histogram then History.histogram (fun _ => 0)
  else History.queue { queue := [], max := max }

/-- `History::add`: energies strictly below `boundaries[0]` are discarded;
otherwise delegate to the active variant. -/
def History.add (T : Tables α) (h : History α) (energy : α) : History α :=
  if energy < T.boundaries 0 then h
  else
    match h with
    | History.histogram hst => History.histogram (Histogram.add T hst energy)
    | History.queue q => History.queue (q.add energy)

/-- `History::set_max_size`: no-op for Histogram, delegates for Queue. -/
def History.set_max_size (h : History α) (max : ℕ) : History α :=
  match h with
  | History.histogram hst => History.histogram hst
  | History.queue q => History.queue (q.set_max_size max)

/-- `History::calc_relative_threshold`: variant dispatch. -/
def History.calc_relative_threshold (T : Tables α) (h : History α) : ℕ × α :=
  match h with
  | History.histogram hst => Histogram.calc_relative_threshold T hst
  | History.queue q => q.calc_relative_threshold

/-- Pass 1 of `History::gated_loudness_multiple`: fold `(count, weighted
energy sum)` across all instances. -/
def relativeThresholdSum (T : Tables α) (s : List (History α)) : ℕ × α :=
  s.foldl (fun acc h =>
    (acc.1 + (History.calc_relative_threshold T h).1,
     acc.2 + (History.calc_relative_threshold T h).2)) (0, 0)

/-- Pass 2 of `History::gated_loudness_multiple`: fold `(count, energy sum)`
of the entries at or above the relative threshold: for a histogram, the
buckets from `start_index` on; for a queue, the raw values at or above the
threshold. -/
def gatedSum (T : Tables α) (relative_threshold : α) (start_index : ℕ)
    (s : List (History α)) : ℕ × α :=
  s.foldl (fun acc h =>
    match h with
    | History.histogram hst =>
      (acc.1 + ∑ i ∈ Finset.Ico start_index 1000, hst i,
       acc.2 + ∑ i ∈ Finset.Ico start_index 1000, (hst i : α) * T.energies i)
    | History.queue q =>
      q.queue.foldl
        (fun acc2 v => if relative_threshold ≤ v then (acc2.1 + 1, acc2.2 + v) else acc2)
        acc) (0, 0)

/-- `History::gated_loudness_multiple`: the two-pass relative-gating
algorithm.  `none` models the f64 result negative infinity. -/
def History.gated_loudness_multiple (T : Tables α) (L : α → α) (s : List (History α)) :
    Option α :=
  let p := relativeThresholdSum T s
  if p.1 = 0 then none
  else
    let relative_threshold := p.2 / (p.1 : α) * (10 : α) ^ ((-10 : ℤ) / 10)
    let q := gatedSum T relative_threshold (gateStartIndex T relative_threshold) s
    if q.1 = 0 then none else some (L (q.2 / (q.1 : α)))

/-- `History::gated_loudness`: the multi-instance computation on the
singleton list. -/
def History.gated_loudness (T : Tables α) (L : α → α) (h : History α) : Option α :=
  History.gated_loudness_multiple T L [h]

/-- `History::relative_threshold`: pass-1 mean scaled by -10 dB, floored at
-70.0 for an empty accumulator. -/
def History.relative_threshold (T : Tables α) (L : α → α) (h : History α) : α :=
  if (History.calc_relative_threshold T h).1 = 0 then -70
  else
    L ((History.calc_relative_threshold T h).2 /
        ((History.calc_relative_threshold T h).1 : α) * (10 : α) ^ ((-10 : ℤ) / 10))

/-- The histogram-combining loop of `History::loudness_range_multiple`:
element-wise counter sum, `none` on encountering a Queue instance (the
`Err(())` early return). -/
def sumHistograms : List (History α) → Option (ℕ → ℕ)
  | [] => some (fun _ => 0)
  | History.histogram h :: t =>
    match sumHistograms t with
    | none => none
    | some c => some (fun i => h i + c i)
  | History.queue _ :: _ => none

/-- The queue-concatenating loops of `History::loudness_range_multiple`:
all raw samples in order, `none` on encountering a Histogram instance. -/
def collectQueues : List (History α) → Option (List α)
  | [] => some []
  | History.queue q :: t =>
    match collectQueues t with
    | none => none
    | some rest => some (q.queue ++ rest)
  | History.histogram _ :: _ => none

/-- `History::loudness_range_multiple`: `Except.error ()` models `Err(())`
(the variant-mismatch failure); inside `Except.ok`, `none` models a panic of
the histogram percentile walk (never reached, see the safety theorem). -/
def History.loudness_range_multiple [FloorRing α] (T : Tables α) (L : α → α)
    (s : List (History α)) : Except Unit (Option α) :=
  match s with
  | [] => Except.ok (some 0)
  | History.histogram h :: t =>
    if t.isEmpty then Except.ok (Histogram.loudness_range T L h)
    else
      match sumHistograms (History.histogram h :: t) with
      | none => Except.error ()
      | some combined => Except.ok (Histogram.loudness_range T L combined)
  | History.queue q :: t =>
    match collectQueues (History.queue q :: t) with
    | none => Except.error ()
    | some combined =>
      Except.ok (some (Queue.loudness_range L (List.insertionSort (· ≤ ·) combined)))

/-- `History::loudness_range`: the multi-instance computation on the
singleton list, with the `unwrap` of the `Err` case modelled as `none`. -/
def History.loudness_range [FloorRing α] (T : Tables α) (L : α → α) (h : History α) :
    Option α :=
  match History.loudness_range_multiple T L [h] with
  | Except.ok v => v
  | Except.error _ => none

/-- Variant tag accessor (the `match` discriminator of the source). -/
def History.isHistogram : History α → Bool
  | History.histogram _ => true
  | History.queue _ => false

/-- Length of the stored queue (`0` for a histogram), used to state queue
invariants. -/
def History.queueLen : History α → ℕ
  | History.queue q => q.queue.length
  | History.histogram _ => 0

/-- Configured maximum of the stored queue (`0` for a histogram). -/
def History.queueMax : History α → ℕ
  | History.queue q => q.max
  | History.histogram _ => 0

/-! ### A concrete table instance for evaluating witnesses

Any `Tables` instance may stand in for the real lookup tables in concrete
evaluations; this one uses `boundaries i = i` and `energies i = i + 1/2`,
which satisfies all the order facts of the initialisation formulas. -/

def demoTables : Tables ℚ :=
  { boundaries := fun i => (i : ℚ)
    energies := fun i => (i : ℚ) + 1 / 2
    bd_mono := by
      intro i j hij _
      show (i : ℚ) < (j : ℚ)
      exact_mod_cast hij
    en_lower := by
      intro i _
      show (i : ℚ) < (i : ℚ) + 1 / 2
      linarith
    en_upper := by
      intro i _
      show (i : ℚ) + 1 / 2 < ((i + 1 : ℕ) : ℚ)
      push_cast
      linarith }

/-! ### C1: the gated-loudness computation refines its description -/

/-- Modelled from the spec: pass 2 of the gated-loudness description in the
claim's own words — re-filter every instance keeping only the energies at or
above the relative threshold: for a histogram, the buckets whose
representative energy is at or above the threshold (equivalently, the
buckets from the first such bucket on); for a queue, the raw values at or
above the threshold. -/
def specGatedSum (T : Tables α) (thr : α) (s : List (History α)) : ℕ × α :=
  s.foldl (fun acc h =>
    match h with
    | History.histogram hst =>
      (acc.1 + ∑ i ∈ (Finset.range 1000).filter (fun i => thr ≤ T.energies i), hst i,
       acc.2 + ∑ i ∈ (Finset.range 1000).filter (fun i => thr ≤ T.energies i),
         (hst i : α) * T.energies i)
    | History.queue q =>
      (acc.1 + (q.queue.filter (fun v => decide (thr ≤ v))).length,
       acc.2 + (q.queue.filter (fun v => decide (thr ≤ v))).sum)) (0, 0)

/-- Modelled from the spec: the gated-loudness description of claim C1 —
sum `(count, energy-sum)` over all instances; negative infinity (`none`) when
the total count is 0; relative threshold `(energy-sum / count) * 10^(-1)`;
re-filter keeping only energies at or above the threshold; result
`loudness(filtered energy-sum / filtered count)`, or `none` when the
filtered count is 0. -/
def gatedLoudnessFromSpec (T : Tables α) (L : α → α) (s : List (History α)) : Option α :=
  let p := relativeThresholdSum T s
  if p.1 = 0 then none
  else
    let thr := p.2 / (p.1 : α) * (10 : α) ^ (-1 : ℤ)
    let q := specGatedSum T thr s
    if q.1 = 0 then none else some (L (q.2 / (q.1 : α)))

theorem queue_foldl_filter (thr : α) (l : List α) :
    ∀ acc : ℕ × α,
      l.foldl (fun acc2 v => if thr ≤ v then (acc2.1 + 1, acc2.2 + v) else acc2) acc =
        (acc.1 + (l.filter (fun v => decide (thr ≤ v))).length,
         acc.2 + (l.filter (fun v => decide (thr ≤ v))).sum) := by
  induction l with
  | nil => intro acc; simp
  | cons x xs ih =>
    intro acc
    by_cases hx : thr ≤ x
    · rw [List.foldl_cons, if_pos hx, ih, List.filter_cons]
      simp only [hx, decide_eq_true_eq, if_true, List.length_cons, List.sum_cons,
        Prod.mk.injEq, decide_True]
      exact ⟨by omega, by ring⟩
    · rw [List.foldl_cons, if_neg hx, ih, List.filter_cons]
      simp [hx]

theorem gatedSum_eq_specGatedSum (T : Tables α) (thr : α) (s : List (History α)) :
    gatedSum T thr (gateStartIndex T thr) s = specGatedSum T thr s := by
  unfold gatedSum specGatedSum
  apply List.foldl_ext
  intro acc h _
  cases h with
  | histogram hst => simp only [gateStartIndex_Ico_eq T thr]
  | queue q => exact queue_foldl_filter thr q.queue acc

/-- C1: `gated_loudness_multiple` computes, for every collection of History
instances, exactly the claimed two-pass computation: sum `(count,
energy-sum)` over all instances, `none` (negative infinity) when the total
count is 0, relative threshold `(energy-sum / count) * 10^(-1)`, re-filter
keeping only energies at or above the threshold (histogram: buckets from the
first bucket whose representative energy is at or above the threshold;
queue: raw values at or above it), and `loudness` of the filtered mean (or
`none` when the filtered count is 0); and `gated_loudness` equals this
computation on the singleton list. -/
theorem gated_loudness_multiple_correct (T : Tables α) (L : α → α) :
    (∀ s : List (History α),
        History.gated_loudness_multiple T L s = gatedLoudnessFromSpec T L s) ∧
      (∀ h : History α,
        History.gated_loudness T L h = History.gated_loudness_multiple T L [h]) := by
  constructor
  · intro s
    have hfac : ((-10 : ℤ) / 10) = (-1 : ℤ) := by norm_num
    unfold History.gated_loudness_multiple gatedLoudnessFromSpec
    simp only [hfac, gatedSum_eq_specGatedSum]
  · intro h
    rfl

/-! ### C3 / C4 / C10: bucket locator properties -/

theorem find_histogram_index_of_top (T : Tables α) (e : α)
    (h : T.boundaries 1000 ≤ e) : find_histogram_index T e = 999 := by
  have hb0 : T.boundaries 0 ≤ e :=
    le_trans (T.bd_mono_le (by omega) (by omega)) h
  have hlt := find_histogram_index_lt T e hb0
  rcases find_histogram_index_upper T e hb0 with hup | htop
  · exfalso
    have hle : T.boundaries (find_histogram_index T e + 1) ≤ T.boundaries 1000 :=
      T.bd_mono_le (by omega) (by omega)
    linarith
  · omega

/-- C3 counterexample: the claim quantifies over every energy
`>= boundaries[0]`, but at the concrete in-precondition energy
`boundaries[1000]` (table: `demoTables`) no bucket index satisfies
`boundaries[i] <= energy < boundaries[i+1]`: the function returns `999`,
whose upper-boundary condition fails. -/
theorem find_histogram_index_counterexample :
    demoTables.boundaries 0 ≤ (1000 : ℚ) ∧
      find_histogram_index demoTables 1000 = 999 ∧
      ¬ ((1000 : ℚ) < demoTables.boundaries (find_histogram_index demoTables 1000 + 1)) := by
  have h999 : find_histogram_index demoTables 1000 = 999 :=
    find_histogram_index_of_top demoTables 1000 (by decide)
  refine ⟨by decide, h999, ?_⟩
  rw [h999]
  decide

/-- C3 (amended): for every energy with
`boundaries[0] <= energy < boundaries[1000]`, `find_histogram_index` returns
the unique bucket index `i` in `[0, 999]` with
`boundaries[i] <= energy < boundaries[i+1]`. -/
theorem find_histogram_index_correct (T : Tables α) (e : α)
    (h0 : T.boundaries 0 ≤ e) (h1 : e < T.boundaries 1000) :
    find_histogram_index T e ≤ 999 ∧
      T.boundaries (find_histogram_index T e) ≤ e ∧
      e < T.boundaries (find_histogram_index T e + 1) ∧
      ∀ j : ℕ, j ≤ 999 → T.boundaries j ≤ e → e < T.boundaries (j + 1) →
        j = find_histogram_index T e := by
  have hlt := find_histogram_index_lt T e h0
  have hle := find_histogram_index_le T e h0
  have hup : e < T.boundaries (find_histogram_index T e + 1) := by
    rcases find_histogram_index_upper T e h0 with h | h
    · exact h
    · rw [h]
      exact h1
  refine ⟨by omega, hle, hup, ?_⟩
  intro j hj hjl hju
  by_contra hne
  rcases Nat.lt_or_ge j (find_histogram_index T e) with hlt2 | hge
  · have : T.boundaries (j + 1) ≤ T.boundaries (find_histogram_index T e) :=
      T.bd_mono_le (by omega) (by omega)
    linarith
  · have hgt : find_histogram_index T e < j := by omega
    have : T.boundaries (find_histogram_index T e + 1) ≤ T.boundaries j :=
      T.bd_mono_le (by omega) (by omega)
    linarith

theorem find_histogram_index_correct_witness :
    (demoTables.boundaries 0 ≤ (5 : ℚ) ∧ (5 : ℚ) < demoTables.boundaries 1000) ∧
      (find_histogram_index demoTables 5 ≤ 999 ∧
        demoTables.boundaries (find_histogram_index demoTables 5) ≤ 5 ∧
        (5 : ℚ) < demoTables.boundaries (find_histogram_index demoTables 5 + 1) ∧
        ∀ j : ℕ, j ≤ 999 → demoTables.boundaries j ≤ 5 →
          (5 : ℚ) < demoTables.boundaries (j + 1) → j = find_histogram_index demoTables 5) :=
  ⟨⟨by decide, by decide⟩, find_histogram_index_correct demoTables 5 (by decide) (by decide)⟩

/-- C4: `find_histogram_index` is monotonic on energies at or above
`boundaries[0]`. -/
theorem find_histogram_index_monotone (T : Tables α) (e1 e2 : α)
    (h0 : T.boundaries 0 ≤ e1) (h12 : e1 ≤ e2) :
    find_histogram_index T e1 ≤ find_histogram_index T e2 := by
  have h02 : T.boundaries 0 ≤ e2 := le_trans h0 h12
  have hl1 := find_histogram_index_le T e1 h0
  have hlt1 := find_histogram_index_lt T e1 h0
  have hlt2 := find_histogram_index_lt T e2 h02
  rcases find_histogram_index_upper T e2 h02 with hup | htop
  · by_contra hcon
    push_neg at hcon
    have hb : T.boundaries (find_histogram_index T e2 + 1) ≤
        T.boundaries (find_histogram_index T e1) := T.bd_mono_le (by omega) (by omega)
    linarith
  · omega

theorem find_histogram_index_monotone_witness :
    (demoTables.boundaries 0 ≤ (3 : ℚ) ∧ (3 : ℚ) ≤ (7 : ℚ)) ∧
      find_histogram_index demoTables 3 ≤ find_histogram_index demoTables 7 :=
  ⟨⟨by decide, by decide⟩, find_histogram_index_monotone demoTables 3 7 (by decide) (by decide)⟩

/-- C10: every energy at or above `boundaries[1000]` is located in the last
bucket, and `History::add` counts it there: there is no upper-range filter
symmetric to the sub-floor silence gate. -/
theorem add_clamps_top_bucket (T : Tables α) (hst : ℕ → ℕ) (e : α)
    (h : T.boundaries 1000 ≤ e) :
    find_histogram_index T e = 999 ∧
      History.add T (History.histogram hst) e =
        History.histogram (Function.update hst 999 (hst 999 + 1)) := by
  have htop := find_histogram_index_of_top T e h
  have hb0 : T.boundaries 0 ≤ e :=
    le_trans (T.bd_mono_le (by omega) (by omega)) h
  refine ⟨htop, ?_⟩
  unfold History.add
  rw [if_neg (not_lt.mpr hb0)]
  unfold Histogram.add
  rw [htop]

/-- An all-zero counts array, used in concrete witnesses. -/
def zeroCounts : ℕ → ℕ := fun _ => 0

theorem add_clamps_top_bucket_witness :
    demoTables.boundaries 1000 ≤ (2000 : ℚ) ∧
      (find_histogram_index demoTables 2000 = 999 ∧
        History.add demoTables (History.histogram zeroCounts) 2000 =
          History.histogram (Function.update zeroCounts 999 (zeroCounts 999 + 1))) :=
  ⟨by decide, add_clamps_top_bucket demoTables zeroCounts 2000 (by decide)⟩

/-! ### C7: sub-floor energies are discarded without touching either
storage strategy -/

/-- C7: for every energy strictly below `boundaries[0]`, `History::add`
returns the aggregator entirely unchanged. -/
theorem add_below_floor_noop (T : Tables α) (h : History α) (e : α)
    (hlt : e < T.boundaries 0) : History.add T h e = h := by
  unfold History.add
  rw [if_pos hlt]

theorem add_below_floor_noop_witness :
    (-1 : ℚ) < demoTables.boundaries 0 ∧
      History.add demoTables (History.new false 3) (-1) = History.new false 3 :=
  ⟨by decide, add_below_floor_noop demoTables (History.new false 3) (-1) (by decide)⟩

/-! ### C2: the queue length bound and FIFO eviction -/

/-- C2 counterexample: `len() <= max` does not hold after every operation.
With a capacity-2 queue holding two samples, `set_max_size 1` leaves both
elements in place (length 2 > max 1), and a subsequent `add` does not evict
(length grows to 3), contradicting both the unconditional invariant and the
claimed gradual eviction. -/
theorem queue_len_le_max_counterexample :
    History.queueLen
        (History.set_max_size
          (History.add demoTables (History.add demoTables
            ((History.new false 2 : History ℚ)) 1) 2) 1) = 2 ∧
      History.queueMax
        (History.set_max_size
          (History.add demoTables (History.add demoTables
            ((History.new false 2 : History ℚ)) 1) 2) 1) = 1 ∧
      ¬ (2 ≤ 1) ∧
      History.queueLen
        (History.add demoTables
          (History.set_max_size
            (History.add demoTables (History.add demoTables
              ((History.new false 2 : History ℚ)) 1) 2) 1) 3) = 3 := by
  decide

/-- C2 (amended): for a Queue with positive capacity, `add` preserves
`len <= max`; when `add` runs with `len == max` the oldest element is evicted
before the newest is appended (FIFO), and whenever `len != max` it appends
without evicting; `set_max_size` lowering `max` below the current length
evicts nothing (only the cap changes), and because `add` evicts only at
`len == max`, each subsequent `add` on such a queue grows the length by one
instead of restoring the bound. -/
theorem queue_fifo_amended (q : Queue α) (e : α) (m : ℕ) :
    (1 ≤ q.max → q.queue.length ≤ q.max → (q.add e).queue.length ≤ q.max) ∧
      ((q.add e).max = q.max) ∧
      (q.queue.length = q.max → (q.add e).queue = q.queue.tail ++ [e]) ∧
      (q.queue.length ≠ q.max →
        (q.add e).queue = q.queue ++ [e] ∧
          (q.add e).queue.length = q.queue.length + 1) ∧
      (m < q.queue.length →
        (q.set_max_size m).queue = q.queue ∧ (q.set_max_size m).max = m) := by
  refine ⟨?_, ?_, ?_, ?_, ?_⟩
  · intro hm hlen
    unfold Queue.add
    by_cases h : q.max = q.queue.length
    · rw [if_pos h]
      simp only [List.length_append, List.length_tail, List.length_cons,
        List.length_nil]
      omega
    · rw [if_neg h]
      simp only [List.length_append, List.length_cons, List.length_nil]
      omega
  · unfold Queue.add
    by_cases h : q.max = q.queue.length
    · rw [if_pos h]
    · rw [if_neg h]
  · intro h
    unfold Queue.add
    rw [if_pos h.symm]
  · intro h
    unfold Queue.add
    rw [if_neg (fun hc => h hc.symm)]
    simp
  · intro h
    unfold Queue.set_max_size
    rw [if_neg (by omega)]
    exact ⟨rfl, rfl⟩

theorem queue_fifo_amended_witness :
    ((1 ≤ ({ queue := [1, 2], max := 2 } : Queue ℚ).max) ∧
        ({ queue := [1, 2], max := 2 } : Queue ℚ).queue.length =
          ({ queue := [1, 2], max := 2 } : Queue ℚ).max) ∧
      (({ queue := [1, 2], max := 2 } : Queue ℚ).add 3).queue =
        ({ queue := [1, 2], max := 2 } : Queue ℚ).queue.tail ++ [3] :=
  ⟨⟨by decide, by decide⟩,
    (queue_fifo_amended ({ queue := [1, 2], max := 2 } : Queue ℚ) 3 0).2.2.1 (by decide)⟩

/-! ### C6: growing a queue pads with zero placeholders -/

/-- C6: when the current length is below the new maximum, `set_max_size`
resizes the queue to the new maximum, preserving the existing values in
arrival order at the front and appending zero-valued placeholders. -/
theorem set_max_size_grow (q : Queue α) (m : ℕ) (h : q.queue.length < m) :
    (q.set_max_size m).queue = q.queue ++ List.replicate (m - q.queue.length) 0 ∧
      (q.set_max_size m).max = m ∧
      (q.set_max_size m).queue.length = m := by
  unfold Queue.set_max_size
  rw [if_pos h]
  refine ⟨rfl, rfl, ?_⟩
  simp only [List.length_append, List.length_replicate]
  omega

/-- C6 witness: the spec's concrete scenario — growing a full capacity-5
queue to max 10 yields length 10 with the five original values first and
five zeros appended. -/
theorem set_max_size_grow_witness :
    ({ queue := [1, 2, 3, 4, 5], max := 5 } : Queue ℚ).queue.length < 10 ∧
      (({ queue := [1, 2, 3, 4, 5], max := 5 } : Queue ℚ).set_max_size 10).queue =
        [1, 2, 3, 4, 5, 0, 0, 0, 0, 0] ∧
      (({ queue := [1, 2, 3, 4, 5], max := 5 } : Queue ℚ).set_max_size 10).max = 10 ∧
      (({ queue := [1, 2, 3, 4, 5], max := 5 } : Queue ℚ).set_max_size 10).queue.length = 10 :=
  ⟨by decide,
    ((set_max_size_grow ({ queue := [1, 2, 3, 4, 5], max := 5 } : Queue ℚ) 10
        (by decide)).1).trans (by decide),
    (set_max_size_grow ({ queue := [1, 2, 3, 4, 5], max := 5 } : Queue ℚ) 10 (by decide)).2.1,
    (set_max_size_grow ({ queue := [1, 2, 3, 4, 5], max := 5 } : Queue ℚ) 10 (by decide)).2.2⟩

/-! ### C8: queries on a freshly constructed History -/

/-- C8: for either variant, a History with no `add` calls yields
`gated_loudness = none` (negative infinity), `relative_threshold = -70.0`
and `loudness_range = 0.0`. -/
theorem fresh_history_queries [FloorRing α] (T : Tables α) (L : α → α)
    (use_histogram : Bool) (max : ℕ) :
    History.gated_loudness T L (History.new use_histogram max) = none ∧
      History.relative_threshold T L (History.new use_histogram max) = -70 ∧
      History.loudness_range T L (History.new use_histogram max) = some 0 := by
  cases use_histogram with
  | false =>
    refine ⟨?_, ?_, ?_⟩
    · simp [History.new, History.gated_loudness, History.gated_loudness_multiple,
        relativeThresholdSum, History.calc_relative_threshold,
        Queue.calc_relative_threshold]
    · simp [History.new, History.relative_threshold, History.calc_relative_threshold,
        Queue.calc_relative_threshold]
    · simp [History.new, History.loudness_range, History.loudness_range_multiple,
        collectQueues, Queue.loudness_range, List.insertionSort]
  | true =>
    refine ⟨?_, ?_, ?_⟩
    · simp [History.new, History.gated_loudness, History.gated_loudness_multiple,
        relativeThresholdSum, History.calc_relative_threshold,
        Histogram.calc_relative_threshold]
    · simp [History.new, History.relative_threshold, History.calc_relative_threshold,
        Histogram.calc_relative_threshold]
    · simp [History.new, History.loudness_range, History.loudness_range_multiple,
        Histogram.loudness_range]

/-! ### C5: variant mismatch in loudness_range_multiple -/

theorem sumHistograms_eq_none (s : List (History α)) :
    sumHistograms s = none ↔ ∃ h ∈ s, History.isHistogram h = false := by
  induction s with
  | nil => simp [sumHistograms]
  | cons h t ih =>
    cases h with
    | histogram hst =>
      have key : sumHistograms (History.histogram hst :: t) = none ↔
          sumHistograms t = none := by
        cases hsum : sumHistograms t with
        | none => simp [sumHistograms, hsum]
        | some c => simp [sumHistograms, hsum]
      rw [key, ih]
      simp [History.isHistogram]
    | queue q =>
      simp [sumHistograms, History.isHistogram]

theorem collectQueues_eq_none (s : List (History α)) :
    collectQueues s = none ↔ ∃ h ∈ s, History.isHistogram h = true := by
  induction s with
  | nil => simp [collectQueues]
  | cons h t ih =>
    cases h with
    | queue q =>
      have key : collectQueues (History.queue q :: t) = none ↔
          collectQueues t = none := by
        cases hcol : collectQueues t with
        | none => simp [collectQueues, hcol]
        | some c => simp [collectQueues, hcol]
      rw [key, ih]
      simp [History.isHistogram]
    | histogram hst =>
      simp [collectQueues, History.isHistogram]

/-- C5: `loudness_range_multiple` fails (with the variant-mismatch error
`Err(())`, whose payload carries no partial result) exactly when the input
mixes Histogram- and Queue-backed instances, and returns `0.0` on the empty
list. -/
theorem loudness_range_multiple_mismatch [FloorRing α] (T : Tables α) (L : α → α) :
    (∀ s : List (History α),
        History.loudness_range_multiple T L s = Except.error () ↔
          ((∃ h ∈ s, History.isHistogram h = true) ∧
            (∃ h ∈ s, History.isHistogram h = false))) ∧
      History.loudness_range_multiple T L ([] : List (History α)) = Except.ok (some 0) := by
  refine ⟨?_, rfl⟩
  intro s
  match s with
  | [] => simp [History.loudness_range_multiple]
  | History.histogram h :: t =>
    have hhist : ∃ x ∈ History.histogram h :: t, History.isHistogram x = true :=
      ⟨History.histogram h, List.mem_cons_self _ _, rfl⟩
    by_cases ht : t.isEmpty
    · have ht' : t = [] := by
        cases t with
        | nil => rfl
        | cons a b => simp [List.isEmpty] at ht
      subst ht'
      simp [History.loudness_range_multiple, History.isHistogram]
    · have hmain : History.loudness_range_multiple T L (History.histogram h :: t) =
          Except.error () ↔ sumHistograms (History.histogram h :: t) = none := by
        cases hsum : sumHistograms (History.histogram h :: t) with
        | none => simp [History.loudness_range_multiple, ht, hsum]
        | some c => simp [History.loudness_range_multiple, ht, hsum]
      rw [hmain, sumHistograms_eq_none]
      simp only [hhist, true_and]
  | History.queue q :: t =>
    have hqueue : ∃ x ∈ History.queue q :: t, History.isHistogram x = false :=
      ⟨History.queue q, List.mem_cons_self _ _, rfl⟩
    have hmain : History.loudness_range_multiple T L (History.queue q :: t) =
        Except.error () ↔ collectQueues (History.queue q :: t) = none := by
      cases hcol : collectQueues (History.queue q :: t) with
      | none => simp [History.loudness_range_multiple, hcol]
      | some c => simp [History.loudness_range_multiple, hcol]
    rw [hmain, collectQueues_eq_none]
    simp only [hqueue, and_true]

/-! ### C9: totality — the percentile walks stay in bounds and the
single-instance unwrap is unreachable -/

theorem percentileWalk_some (h : ℕ → ℕ) (p : ℕ) :
    ∀ fuel size j : ℕ, j ≤ 1000 → 1000 - j < fuel →
      p < size + ∑ i ∈ Finset.Ico j 1000, h i →
      ∃ size2 j2 : ℕ, percentileWalk h p fuel size j = some (size2, j2) ∧
        j ≤ j2 ∧ j2 ≤ 1000 ∧ size2 = size + ∑ i ∈ Finset.Ico j j2, h i ∧ p < size2 := by
  intro fuel
  induction fuel with
  | zero =>
    intro size j h1 h2 h3
    omega
  | succ f ih =>
    intro size j h1 h2 h3
    by_cases hp : p < size
    · refine ⟨size, j, ?_, le_rfl, h1, ?_, hp⟩
      · simp [percentileWalk, hp]
      · simp
    · have hj : j < 1000 := by
        rcases Nat.lt_or_ge j 1000 with hc | hc
        · exact hc
        · exfalso
          have hj1000 : j = 1000 := by omega
          subst hj1000
          simp at h3
          omega
      have hcond : p < (size + h j) + ∑ i ∈ Finset.Ico (j + 1) 1000, h i := by
        rw [Finset.sum_eq_sum_Ico_succ_bot hj h] at h3
        omega
      obtain ⟨s2, j2, heq, hj2a, hj2b, hsum, hlt⟩ :=
        ih (size + h j) (j + 1) (by omega) (by omega) hcond
      refine ⟨s2, j2, ?_, by omega, hj2b, ?_, hlt⟩
      · simp [percentileWalk, hp, hj, heq]
      · rw [hsum, Finset.sum_eq_sum_Ico_succ_bot (show j < j2 by omega) h]
        omega

theorem histPercentiles_isSome [FloorRing α] (T : Tables α) (L : α → α) (h : ℕ → ℕ)
    (index : ℕ) (hidx : index ≤ 1000) (hn : 0 < ∑ i ∈ Finset.Ico index 1000, h i) :
    ∃ v : α, histPercentiles T L h index (∑ i ∈ Finset.Ico index 1000, h i) = some v := by
  set n := ∑ i ∈ Finset.Ico index 1000, h i with hdefn
  have hcast : ((n - 1 : ℕ) : α) = (n : α) - 1 := by
    rw [Nat.cast_sub hn]
    norm_num
  have hn1 : (1 : α) ≤ (n : α) := by exact_mod_cast hn
  have hlow : Nat.floor (((n - 1 : ℕ) : α) * (1 / 10) + 1 / 2) < n := by
    rw [Nat.floor_lt (by positivity)]
    rw [hcast]
    linarith
  have hhigh : Nat.floor (((n - 1 : ℕ) : α) * (95 / 100) + 1 / 2) < n := by
    rw [Nat.floor_lt (by positivity)]
    rw [hcast]
    linarith
  obtain ⟨s1, j1, heq1, hj1a, hj1b, hsum1, hlt1⟩ :=
    percentileWalk_some h (Nat.floor (((n - 1 : ℕ) : α) * (1 / 10) + 1 / 2))
      1001 0 index hidx (by omega) (by omega)
  have hsplit : s1 + ∑ i ∈ Finset.Ico j1 1000, h i = n := by
    rw [hsum1, zero_add, hdefn]
    exact Finset.sum_Ico_consecutive h hj1a hj1b
  obtain ⟨s2, j2, heq2, hj2a, hj2b, hsum2, hlt2⟩ :=
    percentileWalk_some h (Nat.floor (((n - 1 : ℕ) : α) * (95 / 100) + 1 / 2))
      1001 s1 j1 hj1b (by omega) (by omega)
  refine ⟨L (T.energies (j2 - 1)) - L (T.energies (j1 - 1)), ?_⟩
  simp only [histPercentiles, heq1, heq2]

theorem histGated_isSome [FloorRing α] (T : Tables α) (L : α → α) (h : ℕ → ℕ)
    (index : ℕ) (hidx : index ≤ 1000) : ∃ v : α, histGated T L h index = some v := by
  unfold histGated
  by_cases h2 : (∑ i ∈ Finset.Ico index 1000, h i) = 0
  · exact ⟨0, by rw [if_pos h2]⟩
  · rw [if_neg h2]
    exact histPercentiles_isSome T L h index hidx (by omega)

theorem histogram_loudness_range_isSome [FloorRing α] (T : Tables α) (L : α → α)
    (h : ℕ → ℕ) : ∃ v : α, Histogram.loudness_range T L h = some v := by
  unfold Histogram.loudness_range
  by_cases h1 : (∑ i ∈ Finset.range 1000, h i) = 0
  · exact ⟨0, by rw [if_pos h1]⟩
  · rw [if_neg h1]
    exact histGated_isSome T L h _ (gateStartIndex_le T _)

/-- C9: every loudness-range computation is total.  The bucket indices of
the percentile walks stay within bounds (an out-of-bounds access is modelled
as `Except.ok none` and is never produced), and the `unwrap` inside the
single-instance `loudness_range` is unreachable (the singleton call always
returns `Except.ok`).  In this embedding energies are elements of a linear
order, so the sort comparison of `loudness_range_multiple` is total by
construction. -/
theorem loudness_range_no_panic [FloorRing α] (T : Tables α) (L : α → α) :
    (∀ h : History α, ∃ v : α,
        History.loudness_range_multiple T L [h] = Except.ok (some v) ∧
          History.loudness_range T L h = some v) ∧
      ∀ s : List (History α),
        History.loudness_range_multiple T L s = Except.error () ∨
          ∃ v : α, History.loudness_range_multiple T L s = Except.ok (some v) := by
  have hmain : ∀ s : List (History α),
      History.loudness_range_multiple T L s = Except.error () ∨
        ∃ v : α, History.loudness_range_multiple T L s = Except.ok (some v) := by
    intro s
    match s with
    | [] => exact Or.inr ⟨0, rfl⟩
    | History.histogram h :: t =>
      by_cases ht : t.isEmpty
      · obtain ⟨v, hv⟩ := histogram_loudness_range_isSome T L h
        exact Or.inr ⟨v, by simp [History.loudness_range_multiple, ht, hv]⟩
      · cases hsum : sumHistograms (History.histogram h :: t) with
        | none =>
          exact Or.inl (by simp [History.loudness_range_multiple, ht, hsum])
        | some c =>
          obtain ⟨v, hv⟩ := histogram_loudness_range_isSome T L c
          exact Or.inr ⟨v, by simp [History.loudness_range_multiple, ht, hsum, hv]⟩
    | History.queue q :: t =>
      cases hcol : collectQueues (History.queue q :: t) with
      | none => exact Or.inl (by simp [History.loudness_range_multiple, hcol])
      | some c =>
        exact Or.inr ⟨Queue.loudness_range L (List.insertionSort (· ≤ ·) c), by
          simp [History.loudness_range_multiple, hcol]⟩
  refine ⟨?_, hmain⟩
  intro h
  cases h with
  | histogram hst =>
    obtain ⟨v, hv⟩ := histogram_loudness_range_isSome T L hst
    refine ⟨v, ?_, ?_⟩
    · simp [History.loudness_range_multiple, hv]
    · simp [History.loudness_range, History.loudness_range_multiple, hv]
  | queue q =>
    refine ⟨Queue.loudness_range L (List.insertionSort (· ≤ ·) (q.queue ++ [])), ?_, ?_⟩
    · simp only [History.loudness_range_multiple, collectQueues]
    · simp only [History.loudness_range, History.loudness_range_multiple, collectQueues]

/-! ### Faithfulness of the `Tables` abstraction

The actual lookup tables of `init_histogram` are powers of 10 with strictly
increasing exponents; they satisfy every order fact that the `Tables`
structure demands, so every theorem above about an arbitrary `Tables`
instance applies to the real tables over `ℝ`. -/

noncomputable def realTables : Tables ℝ :=
  { boundaries := fun i => (10 : ℝ) ^ (((i : ℝ) / 10 - 70 + 0.691) / 10)
    energies := fun i => (10 : ℝ) ^ (((i : ℝ) / 10 - 69.95 + 0.691) / 10)
    bd_mono := by
      intro i j hij _
      show (10 : ℝ) ^ (((i : ℝ) / 10 - 70 + 0.691) / 10) <
        (10 : ℝ) ^ (((j : ℝ) / 10 - 70 + 0.691) / 10)
      have hcast : (i : ℝ) < (j : ℝ) := by exact_mod_cast hij
      exact (Real.rpow_lt_rpow_left_iff (by norm_num)).mpr (by linarith)
    en_lower := by
      intro i _
      show (10 : ℝ) ^ (((i : ℝ) / 10 - 70 + 0.691) / 10) <
        (10 : ℝ) ^ (((i : ℝ) / 10 - 69.95 + 0.691) / 10)
      exact (Real.rpow_lt_rpow_left_iff (by norm_num)).mpr (by linarith)
    en_upper := by
      intro i _
      show (10 : ℝ) ^ (((i : ℝ) / 10 - 69.95 + 0.691) / 10) <
        (10 : ℝ) ^ ((((i + 1 : ℕ) : ℝ) / 10 - 70 + 0.691) / 10)
      have hcast : ((i + 1 : ℕ) : ℝ) = (i : ℝ) + 1 := by push_cast; ring
      rw [hcast]
      exact (Real.rpow_lt_rpow_left_iff (by norm_num)).mpr (by linarith) }

end Ebur128
